import Mathlib

/-!
# A verified model of the LP sensitivity-analysis engine

The repository is a notebook that builds a three-variable production LP,
solves it with an external solver, and prints post-optimal sensitivity
figures.  The specification describes a standalone simplex-based
sensitivity engine (Tableau Builder → Simplex Solver → Basis Inspector →
Sensitivity Ranger).  That engine is not part of the repository's source,
so it is modelled here from the specification, with exact rational
arithmetic (the spec's floating tolerance ε becomes exactly 0), and the
notebook's concrete data and printed figures are used as the ground truth
for the concrete scenario.
-/

namespace GurobiSA

attribute [local semireducible] Rat.mul Rat.add Rat.sub Rat.inv

/-- Optimization sense of a linear program. -/
inductive Sense where
  | maximize
  | minimize
deriving DecidableEq, Repr

/-- Relational operator of a constraint row. -/
inductive Relop where
  | le
  | ge
  | eq
deriving DecidableEq, Repr

/-- Terminal status of a solve.  Modelled from the spec: `Infeasible` and
`Unbounded` are legitimate terminal statuses represented as data, and
`CycleDetected` is produced when the iteration bound is exhausted. -/
inductive Status where
  | Optimal
  | Infeasible
  | Unbounded
  | CycleDetected
deriving DecidableEq, Repr

/-- Fatal structural error detected before solving. -/
inductive EngineError where
  | MalformedModel
deriving DecidableEq, Repr

/-- A decision variable: lower bound, optional upper bound, objective
coefficient. -/
structure LPVar where
  lb : ℚ
  ub : Option ℚ
  obj : ℚ
deriving DecidableEq, Repr

instance : Inhabited LPVar := ⟨⟨0, none, 0⟩⟩

/-- A constraint row: coefficients, relational operator, right-hand side. -/
structure Constr where
  coeffs : List ℚ
  rel : Relop
  rhs : ℚ
deriving DecidableEq, Repr

instance : Inhabited Constr := ⟨⟨[], Relop.le, 0⟩⟩

/-- Modelled from the spec: the immutable `LinearProgram` problem
description of the engine's data model (the engine itself is absent from
the repository's source, which only calls an external solver). -/
structure LinearProgram where
  vars : List LPVar
  constrs : List Constr
  sense : Sense
deriving DecidableEq, Repr

/-- Modelled from the spec: the simplex `Tableau` — entry matrix,
right-hand sides, the row → basic-variable mapping, and the current
objective row and value (internal minimization convention; exact
rational arithmetic, so the spec's tolerance ε is exactly 0). -/
structure Tableau where
  m : ℕ
  cols : ℕ
  A : ℕ → ℕ → ℚ
  rhs : ℕ → ℚ
  basis : ℕ → ℕ
  objRow : ℕ → ℚ
  objVal : ℚ

/-! ## Tableau Builder

Modelled from the spec: the Builder converts a `LinearProgram` into a
standard-form tableau, adding a slack (+1) for every ≤ row, a surplus (−1)
plus an artificial for every ≥ row, and only an artificial for every = row.
Each finite variable upper bound becomes an additional ≤ row (simple
bounding). -/

/-- Unit coefficient row used for the bound row of variable `j`. -/
def unitRow (n j : ℕ) : List ℚ :=
  (List.range n).map (fun i => if i = j then 1 else 0)

/-- Bound rows for the variables `vs`, which sit at indices `j, j+1, …`
of a problem with `n` variables in total. -/
def boundRowsAux (n : ℕ) : ℕ → List LPVar → List Constr
  | _, [] => []
  | j, v :: vs =>
    match v.ub with
    | some u => ⟨unitRow n j, Relop.le, u⟩ :: boundRowsAux n (j + 1) vs
    | none => boundRowsAux n (j + 1) vs

/-- One additional ≤ row per variable with a finite upper bound. -/
def boundRows (vars : List LPVar) : List Constr :=
  boundRowsAux vars.length 0 vars

/-- All rows of the tableau: the original constraints followed by the
upper-bound rows. -/
def tableauRows (lp : LinearProgram) : List Constr :=
  lp.constrs ++ boundRows lp.vars

/-- Does this row receive a slack/surplus column? (= rows do not.) -/
def isSlackRow (c : Constr) : Bool :=
  match c.rel with
  | Relop.eq => false
  | _ => true

/-- Does this row receive an artificial column? (≥ and = rows do.) -/
def isArtRow (c : Constr) : Bool :=
  match c.rel with
  | Relop.le => false
  | _ => true

/-- Sign of the slack/surplus coefficient: +1 for ≤, −1 for ≥. -/
def slackSign (c : Constr) : ℚ :=
  match c.rel with
  | Relop.ge => -1
  | _ => 1

/-- Assign consecutive column indices, starting at `k`, to the rows
satisfying `p`; other rows get `none`. -/
def assignCols (p : Constr → Bool) : ℕ → List Constr → List (Option ℕ)
  | _, [] => []
  | k, c :: cs =>
    if p c then some k :: assignCols p (k + 1) cs
    else none :: assignCols p k cs

def numVars (lp : LinearProgram) : ℕ := lp.vars.length

def numRows (lp : LinearProgram) : ℕ := (tableauRows lp).length

def nSlacks (lp : LinearProgram) : ℕ := (tableauRows lp).countP isSlackRow

def nArts (lp : LinearProgram) : ℕ := (tableauRows lp).countP isArtRow

/-- Slack/surplus column of each row (`none` for = rows). -/
def slackCols (lp : LinearProgram) : List (Option ℕ) :=
  assignCols isSlackRow (numVars lp) (tableauRows lp)

/-- Artificial column of each row (`none` for ≤ rows). -/
def artCols (lp : LinearProgram) : List (Option ℕ) :=
  assignCols isArtRow (numVars lp + nSlacks lp) (tableauRows lp)

def totalCols (lp : LinearProgram) : ℕ :=
  numVars lp + nSlacks lp + nArts lp

/-- The `i`-th row of the augmented constraint list. -/
def rowConstr (lp : LinearProgram) (i : ℕ) : Constr :=
  (tableauRows lp).getD i default

/-- Entry of the augmented standard-form matrix: original coefficients,
then the slack/surplus entry, then the artificial entry. -/
def entryA (lp : LinearProgram) (i k : ℕ) : ℚ :=
  (if k < numVars lp then (rowConstr lp i).coeffs.getD k 0 else 0)
  + (if (slackCols lp).getD i none = some k then slackSign (rowConstr lp i) else 0)
  + (if (artCols lp).getD i none = some k then 1 else 0)

/-- Initial basis: the artificial column where one exists, the slack
column otherwise. -/
def initBasis (lp : LinearProgram) (i : ℕ) : ℕ :=
  match (artCols lp).getD i none with
  | some a => a
  | none => ((slackCols lp).getD i none).getD 0

/-- The tableau before any objective row has been installed. -/
def baseTableau (lp : LinearProgram) : Tableau :=
  { m := numRows lp
    cols := totalCols lp
    A := entryA lp
    rhs := fun i => (rowConstr lp i).rhs
    basis := initBasis lp
    objRow := fun _ => 0
    objVal := 0 }

/-- Reduced-cost row for cost vector `c`, priced out over the current
basis (`c_j − Σ_r c(basis r)·A r j`). -/
def pricedObjRow (T : Tableau) (c : ℕ → ℚ) : ℕ → ℚ :=
  fun j => c j - ((List.range T.m).map (fun r => c (T.basis r) * T.A r j)).sum

/-- Objective value of the current basic solution for cost vector `c`. -/
def pricedObjVal (T : Tableau) (c : ℕ → ℚ) : ℚ :=
  ((List.range T.m).map (fun r => c (T.basis r) * T.rhs r)).sum

/-- Install a (priced-out) objective row for cost vector `c`. -/
def withCost (T : Tableau) (c : ℕ → ℚ) : Tableau :=
  { T with objRow := pricedObjRow T c, objVal := pricedObjVal T c }

/-- Internal sign: the engine minimizes, so a maximize problem is solved
as the minimization of the negated objective. -/
def senseFactor : Sense → ℚ
  | Sense.maximize => -1
  | Sense.minimize => 1

/-- Phase-1 cost: 1 on artificial columns, 0 elsewhere. -/
def phase1Cost (lp : LinearProgram) (j : ℕ) : ℚ :=
  if (artCols lp).contains (some j) then 1 else 0

/-- Phase-2 cost: the (sense-adjusted) true objective on the original
variables, 0 on slack and artificial columns. -/
def phase2Cost (lp : LinearProgram) (j : ℕ) : ℚ :=
  if j < numVars lp then senseFactor lp.sense * (lp.vars.getD j default).obj else 0

/-- Structural validity: row lengths match the variable count, and no
lower bound exceeds its upper bound (`MalformedModel` otherwise). -/
def wellformed (lp : LinearProgram) : Bool :=
  lp.constrs.all (fun c => c.coeffs.length == lp.vars.length)
  && lp.vars.all (fun v =>
      match v.ub with
      | some u => decide (v.lb ≤ u)
      | none => true)

/-! ## Simplex Solver

Modelled from the spec: at each iteration the entering variable is the
allowed column with the most negative reduced cost (ties broken by lowest
column index), the leaving variable is chosen by the minimum-ratio test
over rows with positive pivot-column entries (ties broken by lowest
basic-variable index), and a generous iteration bound guards against
cycling (`CycleDetected`). -/

/-- First element of `l` minimizing `f` among those satisfying `ok`
(earlier elements win ties). -/
def argminQ (f : ℕ → ℚ) (ok : ℕ → Bool) : List ℕ → Option ℕ
  | [] => none
  | j :: rest =>
    match argminQ f ok rest with
    | none => if ok j then some j else none
    | some b =>
      if ok j then (if f j ≤ f b then some j else some b) else some b

/-- Entering column: the allowed column with the most negative objective
row entry, lowest index on ties; `none` when no negative entry remains. -/
def enteringCol (al : ℕ → Bool) (T : Tableau) : Option ℕ :=
  argminQ T.objRow (fun j => al j && decide (T.objRow j < 0)) (List.range T.cols)

/-- Row minimizing `rhs r / A r j` among rows with `A r j > 0`, ratio
ties broken by the lowest basic-variable index. -/
def minRatioRow (T : Tableau) (j : ℕ) : List ℕ → Option ℕ
  | [] => none
  | r :: rest =>
    match minRatioRow T j rest with
    | none => if 0 < T.A r j then some r else none
    | some b =>
      if 0 < T.A r j then
        (if T.rhs r / T.A r j < T.rhs b / T.A b j then some r
         else if T.rhs b / T.A b j < T.rhs r / T.A r j then some b
         else if T.basis r ≤ T.basis b then some r else some b)
      else some b

/-- Leaving row for entering column `j` (minimum-ratio test). -/
def leavingRow (T : Tableau) (j : ℕ) : Option ℕ :=
  minRatioRow T j (List.range T.m)

/-- Gauss-Jordan pivot on row `r`, column `j`: normalize the pivot row,
eliminate column `j` from every other row and from the objective row, and
record `j` as the basic variable of row `r`. -/
def pivot (T : Tableau) (r j : ℕ) : Tableau :=
  let p := T.A r j
  { m := T.m
    cols := T.cols
    A := fun i k =>
      if i = r then T.A r k / p else T.A i k - T.A i j * (T.A r k / p)
    rhs := fun i =>
      if i = r then T.rhs r / p else T.rhs i - T.A i j * (T.rhs r / p)
    basis := fun i => if i = r then j else T.basis i
    objRow := fun k => T.objRow k - T.objRow j * (T.A r k / p)
    objVal := T.objVal + T.objRow j * (T.rhs r / p) }

/-- Result of one solver step: a terminal status, or the next tableau. -/
inductive StepRes where
  | done : Status → Tableau → StepRes
  | next : Tableau → StepRes

/-- One step of the pivot loop. -/
def simplexStep (al : ℕ → Bool) (T : Tableau) : StepRes :=
  match enteringCol al T with
  | none => StepRes.done Status.Optimal T
  | some j =>
    match leavingRow T j with
    | none => StepRes.done Status.Unbounded T
    | some r => StepRes.next (pivot T r j)

/-- Fuel-bounded pivot loop: reports `CycleDetected` when the iteration
bound is exhausted, rather than looping forever. -/
def simplexLoop (al : ℕ → Bool) : ℕ → Tableau → Status × Tableau
  | 0, T => (Status.CycleDetected, T)
  | fuel + 1, T =>
    match simplexStep al T with
    | StepRes.done s Tf => (s, Tf)
    | StepRes.next T' => simplexLoop al fuel T'

/-- The spec's generous iteration bound. -/
def fuelBound : ℕ := 10000

def allowAll : ℕ → Bool := fun _ => true

/-- In phase 2 artificial columns may not re-enter the basis. -/
def phase2Allowed (lp : LinearProgram) : ℕ → Bool :=
  fun j => !(artCols lp).contains (some j)

/-- Terminal artifact of a solve: status, variable values and objective
value (populated only on `Optimal`), and the frozen terminal tableau. -/
structure BasicFeasibleSolution where
  status : Status
  values : Option (List ℚ)
  objVal : Option ℚ
  tab : Tableau

/-- Values of the original variables read off the terminal tableau. -/
def varValues (lp : LinearProgram) (T : Tableau) : List ℚ :=
  (List.range (numVars lp)).map (fun j =>
    match (List.range T.m).find? (fun r => T.basis r == j) with
    | some r => T.rhs r
    | none => 0)

/-- Package a loop result as a `BasicFeasibleSolution`; values are
populated only on `Optimal`, and the objective is reported in the
original optimization sense. -/
def finishSolve (lp : LinearProgram) (st : Status) (T : Tableau) :
    BasicFeasibleSolution :=
  match st with
  | Status.Optimal =>
    ⟨Status.Optimal, some (varValues lp T), some (senseFactor lp.sense * T.objVal), T⟩
  | s => ⟨s, none, none, T⟩

/-- The phase-1 loop result: minimize the sum of artificials from the
all-slack/artificial starting basis. -/
def phase1Result (lp : LinearProgram) : Status × Tableau :=
  simplexLoop allowAll fuelBound (withCost (baseTableau lp) (phase1Cost lp))

/-- The phase-2 loop on the true objective, from tableau `T`. -/
def solvePhase2 (lp : LinearProgram) (T : Tableau) : Status × Tableau :=
  simplexLoop (phase2Allowed lp) fuelBound (withCost T (phase2Cost lp))

/-- Modelled from the spec: the full solve — structural check, then
phase 1 when artificial variables exist (declaring `Infeasible` when
their minimum is positive), then phase 2 on the true objective. -/
def solve (lp : LinearProgram) : Except EngineError BasicFeasibleSolution :=
  if !wellformed lp then Except.error EngineError.MalformedModel
  else if nArts lp = 0 then
    Except.ok (finishSolve lp (solvePhase2 lp (baseTableau lp)).1
      (solvePhase2 lp (baseTableau lp)).2)
  else if (phase1Result lp).1 = Status.Optimal then
    if 0 < (phase1Result lp).2.objVal then
      Except.ok ⟨Status.Infeasible, none, none, (phase1Result lp).2⟩
    else
      Except.ok (finishSolve lp (solvePhase2 lp (phase1Result lp).2).1
        (solvePhase2 lp (phase1Result lp).2).2)
  else
    Except.ok ⟨(phase1Result lp).1, none, none, (phase1Result lp).2⟩

/-! ## Basis Inspector

Modelled from the spec: shadow prices are the objective-row coefficients
under each row's slack/surplus column (artificial column for = rows),
sign-adjusted for the optimization sense and constraint direction, and
reduced costs are the objective-row coefficients sign-adjusted for the
optimization sense (the engine minimizes internally, so under maximize
the reported reduced cost is the negated coefficient, matching the
notebook's reported `RC` values). -/

/-- Sign adjustment for the constraint direction. -/
def relSign : Relop → ℚ
  | Relop.ge => -1
  | _ => 1

/-- The column whose objective-row entry carries row `i`'s dual value:
the slack/surplus column, or the artificial column for = rows. -/
def rowPriceCol (lp : LinearProgram) (i : ℕ) : ℕ :=
  match (rowConstr lp i).rel with
  | Relop.eq => ((artCols lp).getD i none).getD 0
  | _ => ((slackCols lp).getD i none).getD 0

/-- Shadow price of row `i`, sign-adjusted for sense and direction. -/
def shadowPrice (lp : LinearProgram) (T : Tableau) (i : ℕ) : ℚ :=
  (if lp.sense = Sense.maximize then 1 else -1)
    * relSign (rowConstr lp i).rel * T.objRow (rowPriceCol lp i)

/-- Reduced cost of column `j`, sign-adjusted for the sense. -/
def reducedCost (lp : LinearProgram) (T : Tableau) (j : ℕ) : ℚ :=
  (if lp.sense = Sense.maximize then -1 else 1) * T.objRow j

/-! ## Sensitivity Ranger

Modelled from the spec: objective-coefficient ranges by ratio tests over
the non-basic columns (one bound is infinite for a non-basic variable),
and RHS ranges by ratio tests over the rows of the inverse-basis column
(the slack/artificial column of the row).  `none` encodes +∞. -/

/-- Is column `j` basic in `T`? -/
def isBasic (T : Tableau) (j : ℕ) : Bool :=
  (List.range T.m).any (fun r => T.basis r == j)

/-- The row in which column `j` is basic, when it is. -/
def basicRow (T : Tableau) (j : ℕ) : Option ℕ :=
  (List.range T.m).find? (fun r => T.basis r == j)

/-- Minimum of a list of rationals (`none` for the empty list). -/
def minQ : List ℚ → Option ℚ
  | [] => none
  | q :: rest =>
    match minQ rest with
    | none => some q
    | some b => some (min q b)

/-- Columns eligible for objective-ranging ratio tests: non-basic,
non-artificial columns. -/
def rangeCols (lp : LinearProgram) (T : Tableau) : List ℕ :=
  (List.range T.cols).filter
    (fun k => !isBasic T k && !(artCols lp).contains (some k))

/-- Allowable increase of the internal (minimization) cost of column `j`
before the basis would change (`none` = unbounded). -/
def objRangeIntInc (lp : LinearProgram) (T : Tableau) (j : ℕ) : Option ℚ :=
  match basicRow T j with
  | none => none
  | some r =>
    minQ (((rangeCols lp T).filter (fun k => decide (0 < T.A r k))).map
      (fun k => T.objRow k / T.A r k))

/-- Allowable decrease of the internal cost of column `j`. -/
def objRangeIntDec (lp : LinearProgram) (T : Tableau) (j : ℕ) : Option ℚ :=
  match basicRow T j with
  | none => some (T.objRow j)
  | some r =>
    minQ (((rangeCols lp T).filter (fun k => decide (T.A r k < 0))).map
      (fun k => T.objRow k / (-T.A r k)))

/-- Allowable increase of the original objective coefficient of `j`. -/
def objAllowableInc (lp : LinearProgram) (T : Tableau) (j : ℕ) : Option ℚ :=
  match lp.sense with
  | Sense.maximize => objRangeIntDec lp T j
  | Sense.minimize => objRangeIntInc lp T j

/-- Allowable decrease of the original objective coefficient of `j`. -/
def objAllowableDec (lp : LinearProgram) (T : Tableau) (j : ℕ) : Option ℚ :=
  match lp.sense with
  | Sense.maximize => objRangeIntInc lp T j
  | Sense.minimize => objRangeIntDec lp T j

/-- Column of the inverse basis corresponding to row `i`'s RHS: the slack
column for ≤ rows, the artificial column otherwise. -/
def rhsRangeCol (lp : LinearProgram) (i : ℕ) : ℕ :=
  match (rowConstr lp i).rel with
  | Relop.le => ((slackCols lp).getD i none).getD 0
  | _ => ((artCols lp).getD i none).getD 0

/-- Allowable increase of row `i`'s RHS before a basic variable would
leave its bounds. -/
def rhsAllowableInc (lp : LinearProgram) (T : Tableau) (i : ℕ) : Option ℚ :=
  minQ (((List.range T.m).filter
      (fun r => decide (T.A r (rhsRangeCol lp i) < 0))).map
    (fun r => T.rhs r / (-T.A r (rhsRangeCol lp i))))

/-- Allowable decrease of row `i`'s RHS. -/
def rhsAllowableDec (lp : LinearProgram) (T : Tableau) (i : ℕ) : Option ℚ :=
  minQ (((List.range T.m).filter
      (fun r => decide (0 < T.A r (rhsRangeCol lp i)))).map
    (fun r => T.rhs r / T.A r (rhsRangeCol lp i)))

/-- Output artifact: per-variable reduced costs and objective ranges,
per-constraint shadow prices and RHS ranges (`none` = +∞). -/
structure SensitivityReport where
  reducedCosts : List ℚ
  objInc : List (Option ℚ)
  objDec : List (Option ℚ)
  shadowPrices : List ℚ
  rhsInc : List (Option ℚ)
  rhsDec : List (Option ℚ)
deriving DecidableEq, Repr

/-- Assemble the report for the original variables and constraints. -/
def sensitivityReport (lp : LinearProgram) (T : Tableau) : SensitivityReport :=
  { reducedCosts := (List.range (numVars lp)).map (reducedCost lp T)
    objInc := (List.range (numVars lp)).map (objAllowableInc lp T)
    objDec := (List.range (numVars lp)).map (objAllowableDec lp T)
    shadowPrices := (List.range lp.constrs.length).map (shadowPrice lp T)
    rhsInc := (List.range lp.constrs.length).map (rhsAllowableInc lp T)
    rhsDec := (List.range lp.constrs.length).map (rhsAllowableDec lp T) }

/-! ## Selector characterizations

The entering and leaving selectors realize the spec's pivot rules: most
negative reduced cost with ties to the lowest column index, and minimum
ratio with ties to the lowest basic-variable index. -/

theorem argminQ_none {f : ℕ → ℚ} {ok : ℕ → Bool} :
    ∀ {l : List ℕ}, argminQ f ok l = none → ∀ k ∈ l, ok k = false := by
  intro l
  induction l with
  | nil => intro _ k hk; cases hk
  | cons a rest ih =>
    intro h k hk
    rw [argminQ] at h
    cases hrest : argminQ f ok rest with
    | none =>
      simp only [hrest] at h
      have ha : ok a = false := by
        by_cases ha' : ok a = true
        · simp [ha'] at h
        · exact Bool.not_eq_true _ ▸ (by simpa using ha')
      rcases List.mem_cons.mp hk with rfl | hk'
      · exact ha
      · exact ih hrest k hk'
    | some b =>
      simp only [hrest] at h
      split at h
      · split at h
        · exact Option.noConfusion h
        · exact Option.noConfusion h
      · exact Option.noConfusion h

/-- The selected index is a member, is admissible, minimizes `f` among
the admissible members, and on ties has the lowest position in a
strictly sorted list. -/
theorem argminQ_spec {f : ℕ → ℚ} {ok : ℕ → Bool} :
    ∀ {l : List ℕ} {j : ℕ}, l.Pairwise (· < ·) → argminQ f ok l = some j →
      j ∈ l ∧ ok j = true
        ∧ ∀ k ∈ l, ok k = true → f j ≤ f k ∧ (f j = f k → j ≤ k) := by
  intro l
  induction l with
  | nil => intro j _ h; cases h
  | cons a rest ih =>
    intro j hp h
    have hpr : rest.Pairwise (· < ·) := (List.pairwise_cons.mp hp).2
    have hlt : ∀ k ∈ rest, a < k := (List.pairwise_cons.mp hp).1
    rw [argminQ] at h
    cases hrest : argminQ f ok rest with
    | none =>
      simp only [hrest] at h
      have hnone := argminQ_none hrest
      by_cases ha' : ok a = true
      · simp only [ha', if_true] at h
        obtain rfl : a = j := by injection h
        refine ⟨List.mem_cons_self _ _, ha', ?_⟩
        intro k hk hok
        rcases List.mem_cons.mp hk with rfl | hk'
        · exact ⟨le_refl _, fun _ => le_refl _⟩
        · exact absurd hok (by simp [hnone k hk'])
      · simp [ha'] at h
    | some b =>
      simp only [hrest] at h
      obtain ⟨hbmem, hbok, hbmin⟩ := ih hpr hrest
      by_cases ha' : ok a = true
      · simp only [ha', if_true] at h
        by_cases hfa : f a ≤ f b
        · simp only [hfa, if_true] at h
          obtain rfl : a = j := by injection h
          refine ⟨List.mem_cons_self _ _, ha', ?_⟩
          intro k hk hok
          rcases List.mem_cons.mp hk with rfl | hk'
          · exact ⟨le_refl _, fun _ => le_refl _⟩
          · exact ⟨le_trans hfa (hbmin k hk' hok).1,
              fun _ => le_of_lt (hlt k hk')⟩
        · simp only [hfa, if_false] at h
          obtain rfl : b = j := by injection h
          refine ⟨List.mem_cons_of_mem _ hbmem, hbok, ?_⟩
          intro k hk hok
          rcases List.mem_cons.mp hk with rfl | hk'
          · exact ⟨le_of_lt (lt_of_not_le hfa),
              fun he => absurd he.symm.le hfa⟩
          · exact hbmin k hk' hok
      · simp only [ha', if_false] at h
        obtain rfl : b = j := by injection h
        refine ⟨List.mem_cons_of_mem _ hbmem, hbok, ?_⟩
        intro k hk hok
        rcases List.mem_cons.mp hk with rfl | hk'
        · exact absurd hok (by simp [ha'])
        · exact hbmin k hk' hok

/-- Properties of the entering column: in range, allowed, negative
objective entry, minimal among such, lowest column index on ties. -/
theorem enteringCol_spec {al : ℕ → Bool} {T : Tableau} {j : ℕ}
    (h : enteringCol al T = some j) :
    j < T.cols ∧ al j = true ∧ T.objRow j < 0
      ∧ ∀ k, k < T.cols → al k = true → T.objRow k < 0 →
          T.objRow j ≤ T.objRow k ∧ (T.objRow j = T.objRow k → j ≤ k) := by
  obtain ⟨hmem, hok, hmin⟩ := argminQ_spec (List.pairwise_lt_range _) h
  have hok' := hok
  simp only [Bool.and_eq_true, decide_eq_true_eq] at hok'
  refine ⟨List.mem_range.mp hmem, hok'.1, hok'.2, ?_⟩
  intro k hk hal hneg
  exact hmin k (List.mem_range.mpr hk) (by simp [hal, hneg])

theorem minRatioRow_none {T : Tableau} {j : ℕ} :
    ∀ {l : List ℕ}, minRatioRow T j l = none → ∀ k ∈ l, ¬(0 < T.A k j) := by
  intro l
  induction l with
  | nil => intro _ k hk; cases hk
  | cons a rest ih =>
    intro h k hk
    rw [minRatioRow] at h
    cases hrest : minRatioRow T j rest with
    | none =>
      simp only [hrest] at h
      rcases List.mem_cons.mp hk with rfl | hk'
      · intro hpos; simp [hpos] at h
      · exact ih hrest k hk'
    | some b =>
      simp only [hrest] at h
      split at h
      · split at h
        · exact Option.noConfusion h
        · split at h
          · exact Option.noConfusion h
          · split at h
            · exact Option.noConfusion h
            · exact Option.noConfusion h
      · exact Option.noConfusion h

/-- Properties of the leaving row: a member with positive pivot entry,
of minimum ratio, with ties broken by the lowest basic-variable index. -/
theorem minRatioRow_spec {T : Tableau} {j : ℕ} :
    ∀ {l : List ℕ} {r : ℕ}, minRatioRow T j l = some r →
      r ∈ l ∧ 0 < T.A r j
        ∧ ∀ k ∈ l, 0 < T.A k j →
            (T.rhs r / T.A r j < T.rhs k / T.A k j
              ∨ (T.rhs r / T.A r j = T.rhs k / T.A k j
                  ∧ T.basis r ≤ T.basis k)) := by
  intro l
  induction l with
  | nil => intro r h; cases h
  | cons a rest ih =>
    intro r h
    rw [minRatioRow] at h
    cases hrest : minRatioRow T j rest with
    | none =>
      simp only [hrest] at h
      have hnone := minRatioRow_none hrest
      by_cases hpos : 0 < T.A a j
      · simp only [hpos, if_true] at h
        obtain rfl : a = r := by injection h
        refine ⟨List.mem_cons_self _ _, hpos, ?_⟩
        intro k hk hkpos
        rcases List.mem_cons.mp hk with rfl | hk'
        · exact Or.inr ⟨rfl, le_refl _⟩
        · exact absurd hkpos (hnone k hk')
      · simp [hpos] at h
    | some b =>
      simp only [hrest] at h
      obtain ⟨hbmem, hbpos, hbmin⟩ := ih hrest
      by_cases hpos : 0 < T.A a j
      · simp only [hpos, if_true] at h
        by_cases hlt : T.rhs a / T.A a j < T.rhs b / T.A b j
        · simp only [hlt, if_true] at h
          obtain rfl : a = r := by injection h
          refine ⟨List.mem_cons_self _ _, hpos, ?_⟩
          intro k hk hkpos
          rcases List.mem_cons.mp hk with rfl | hk'
          · exact Or.inr ⟨rfl, le_refl _⟩
          · rcases hbmin k hk' hkpos with h' | ⟨h', _⟩
            · exact Or.inl (lt_trans hlt h')
            · exact Or.inl (h' ▸ hlt)
        · simp only [hlt, if_false] at h
          by_cases hgt : T.rhs b / T.A b j < T.rhs a / T.A a j
          · simp only [hgt, if_true] at h
            obtain rfl : b = r := by injection h
            refine ⟨List.mem_cons_of_mem _ hbmem, hbpos, ?_⟩
            intro k hk hkpos
            rcases List.mem_cons.mp hk with rfl | hk'
            · exact Or.inl hgt
            · exact hbmin k hk' hkpos
          · simp only [hgt, if_false] at h
            have heq : T.rhs a / T.A a j = T.rhs b / T.A b j :=
              le_antisymm (le_of_not_lt hgt) (le_of_not_lt hlt)
            by_cases hbas : T.basis a ≤ T.basis b
            · simp only [hbas, if_true] at h
              obtain rfl : a = r := by injection h
              refine ⟨List.mem_cons_self _ _, hpos, ?_⟩
              intro k hk hkpos
              rcases List.mem_cons.mp hk with rfl | hk'
              · exact Or.inr ⟨rfl, le_refl _⟩
              · rcases hbmin k hk' hkpos with h' | ⟨h', hb'⟩
                · exact Or.inl (heq ▸ h')
                · exact Or.inr ⟨heq.trans h', le_trans hbas hb'⟩
            · simp only [hbas, if_false] at h
              obtain rfl : b = r := by injection h
              refine ⟨List.mem_cons_of_mem _ hbmem, hbpos, ?_⟩
              intro k hk hkpos
              rcases List.mem_cons.mp hk with rfl | hk'
              · exact Or.inr ⟨heq.symm, le_of_lt (lt_of_not_le hbas)⟩
              · exact hbmin k hk' hkpos
      · simp only [hpos, if_false] at h
        obtain rfl : b = r := by injection h
        refine ⟨List.mem_cons_of_mem _ hbmem, hbpos, ?_⟩
        intro k hk hkpos
        rcases List.mem_cons.mp hk with rfl | hk'
        · exact absurd hkpos hpos
        · exact hbmin k hk' hkpos

/-- Properties of the leaving row, at the level of `leavingRow`. -/
theorem leavingRow_spec {T : Tableau} {j r : ℕ} (h : leavingRow T j = some r) :
    r < T.m ∧ 0 < T.A r j
      ∧ ∀ k, k < T.m → 0 < T.A k j →
          (T.rhs r / T.A r j < T.rhs k / T.A k j
            ∨ (T.rhs r / T.A r j = T.rhs k / T.A k j
                ∧ T.basis r ≤ T.basis k)) := by
  obtain ⟨hmem, hpos, hmin⟩ := minRatioRow_spec h
  exact ⟨List.mem_range.mp hmem, hpos,
    fun k hk => hmin k (List.mem_range.mpr hk)⟩

/-! ## The basis invariant

The spec's Tableau invariant: the basic-variable mapping assigns exactly
one basic variable per row (in range, injectively), the basic columns
form an identity sub-matrix exactly, and the objective row vanishes on
basic columns. -/

def Invariant (T : Tableau) : Prop :=
  (∀ r ∈ Finset.range T.m, T.basis r < T.cols)
  ∧ (∀ r ∈ Finset.range T.m, ∀ r' ∈ Finset.range T.m,
      T.basis r = T.basis r' → r = r')
  ∧ (∀ r ∈ Finset.range T.m, ∀ i ∈ Finset.range T.m,
      T.A i (T.basis r) = if i = r then 1 else 0)
  ∧ (∀ r ∈ Finset.range T.m, T.objRow (T.basis r) = 0)

instance (T : Tableau) : Decidable (Invariant T) := by
  unfold Invariant; infer_instance

/-- A pivot chosen by the solver's rules preserves the invariant. -/
theorem pivot_invariant {T : Tableau} (hInv : Invariant T) {r j : ℕ}
    (hr : r < T.m) (hj : j < T.cols) (hneg : T.objRow j < 0)
    (hp : 0 < T.A r j) : Invariant (pivot T r j) := by
  obtain ⟨hbnd, hinj, hcol, hobj⟩ := hInv
  have hp0 : T.A r j ≠ 0 := ne_of_gt hp
  have hrm : r ∈ Finset.range T.m := Finset.mem_range.mpr hr
  have hjnb : ∀ r' ∈ Finset.range T.m, T.basis r' ≠ j := by
    intro r' hr' he
    exact absurd (he ▸ hobj r' hr') (ne_of_lt hneg)
  refine ⟨?_, ?_, ?_, ?_⟩
  · intro i hi
    simp only [pivot]
    by_cases hi' : i = r
    · simpa [hi'] using hj
    · simpa [hi'] using hbnd i hi
  · intro a ha b hb he
    simp only [pivot] at he
    by_cases ha' : a = r <;> by_cases hb' : b = r
    · exact ha'.trans hb'.symm
    · rw [if_pos ha', if_neg hb'] at he
      exact absurd he.symm (hjnb b hb)
    · rw [if_neg ha', if_pos hb'] at he
      exact absurd he (hjnb a ha)
    · rw [if_neg ha', if_neg hb'] at he
      exact hinj a ha b hb he
  · intro rr hrr i hi
    simp only [pivot] at hrr hi ⊢
    by_cases hrr' : rr = r
    · rw [if_pos hrr', hrr']
      by_cases hi' : i = r
      · rw [if_pos hi', if_pos hi', div_self hp0]
      · rw [if_neg hi', if_neg hi', div_self hp0, mul_one, sub_self]
    · rw [if_neg hrr']
      have hAr : T.A r (T.basis rr) = 0 := by
        have := hcol rr hrr r hrm
        rwa [if_neg (fun h => hrr' h.symm)] at this
      by_cases hi' : i = r
      · rw [if_pos hi', hAr, zero_div,
          if_neg (fun h => hrr' (h.symm.trans hi'))]
      · rw [if_neg hi', hAr, zero_div, mul_zero, sub_zero]
        exact hcol rr hrr i hi
  · intro rr hrr
    simp only [pivot] at hrr ⊢
    by_cases hrr' : rr = r
    · rw [if_pos hrr', div_self hp0, mul_one, sub_self]
    · rw [if_neg hrr']
      have hAr : T.A r (T.basis rr) = 0 := by
        have := hcol rr hrr r hrm
        rwa [if_neg (fun h => hrr' h.symm)] at this
      rw [hAr, zero_div, mul_zero, sub_zero]
      exact hobj rr hrr

/-- A `done` step returns the tableau unchanged, with status `Optimal`
or `Unbounded`. -/
theorem simplexStep_done {al : ℕ → Bool} {T : Tableau} {s : Status}
    {Tf : Tableau} (h : simplexStep al T = StepRes.done s Tf) :
    Tf = T ∧ (s = Status.Optimal ∨ s = Status.Unbounded) := by
  unfold simplexStep at h
  cases he : enteringCol al T with
  | none =>
    simp only [he] at h
    injection h with h1 h2
    exact ⟨h2.symm, Or.inl h1.symm⟩
  | some j =>
    simp only [he] at h
    cases hl : leavingRow T j with
    | none =>
      simp only [hl] at h
      injection h with h1 h2
      exact ⟨h2.symm, Or.inr h1.symm⟩
    | some r => simp only [hl] at h; exact StepRes.noConfusion h

/-- A `next` step preserves the invariant. -/
theorem simplexStep_invariant {al : ℕ → Bool} {T T' : Tableau}
    (hInv : Invariant T) (h : simplexStep al T = StepRes.next T') :
    Invariant T' := by
  unfold simplexStep at h
  cases he : enteringCol al T with
  | none => simp only [he] at h; exact StepRes.noConfusion h
  | some j =>
    simp only [he] at h
    cases hl : leavingRow T j with
    | none => simp only [hl] at h; exact StepRes.noConfusion h
    | some r =>
      simp only [hl] at h
      injection h with h1
      obtain ⟨hj, _, hneg, _⟩ := enteringCol_spec he
      obtain ⟨hr, hpos, _⟩ := leavingRow_spec hl
      exact h1 ▸ pivot_invariant hInv hr hj hneg hpos

/-- The invariant holds after the whole pivot loop. -/
theorem simplexLoop_invariant {al : ℕ → Bool} :
    ∀ {fuel : ℕ} {T : Tableau}, Invariant T →
      Invariant (simplexLoop al fuel T).2 := by
  intro fuel
  induction fuel with
  | zero => intro T h; exact h
  | succ f ih =>
    intro T h
    rw [simplexLoop]
    cases hs : simplexStep al T with
    | done s Tf =>
      obtain ⟨rfl, -⟩ := simplexStep_done hs
      exact h
    | next T' => exact ih (simplexStep_invariant h hs)

/-! ## The initial tableau satisfies the invariant -/

theorem assignCols_ge {p : Constr → Bool} :
    ∀ {cs : List Constr} {k i v : ℕ},
      (assignCols p k cs).getD i none = some v → k ≤ v := by
  intro cs
  induction cs with
  | nil => intro k i v h; simp [assignCols] at h
  | cons c cs ih =>
    intro k i v h
    rw [assignCols] at h
    by_cases hc : p c
    · rw [if_pos hc] at h
      cases i with
      | zero => rw [List.getD_cons_zero] at h; injection h with h; omega
      | succ i =>
        rw [List.getD_cons_succ] at h
        exact le_trans (Nat.le_succ k) (ih h)
    · rw [if_neg hc] at h
      cases i with
      | zero => rw [List.getD_cons_zero] at h; exact Option.noConfusion h
      | succ i => rw [List.getD_cons_succ] at h; exact ih h

theorem assignCols_lt {p : Constr → Bool} :
    ∀ {cs : List Constr} {k i v : ℕ},
      (assignCols p k cs).getD i none = some v → v < k + cs.countP p := by
  intro cs
  induction cs with
  | nil => intro k i v h; simp [assignCols] at h
  | cons c cs ih =>
    intro k i v h
    rw [assignCols] at h
    rw [List.countP_cons]
    by_cases hc : p c
    · rw [if_pos hc] at h
      simp only [hc, if_pos]
      cases i with
      | zero =>
        rw [List.getD_cons_zero] at h
        injection h with h
        omega
      | succ i =>
        rw [List.getD_cons_succ] at h
        have := ih h
        omega
    · rw [if_neg hc] at h
      simp only [hc]
      cases i with
      | zero => rw [List.getD_cons_zero] at h; exact Option.noConfusion h
      | succ i =>
        rw [List.getD_cons_succ] at h
        have := ih h
        omega

theorem assignCols_inj {p : Constr → Bool} :
    ∀ {cs : List Constr} {k i i' v : ℕ},
      (assignCols p k cs).getD i none = some v →
      (assignCols p k cs).getD i' none = some v → i = i' := by
  intro cs
  induction cs with
  | nil => intro k i i' v h; simp [assignCols] at h
  | cons c cs ih =>
    intro k i i' v h h'
    rw [assignCols] at h h'
    by_cases hc : p c
    · rw [if_pos hc] at h h'
      cases i with
      | zero =>
        rw [List.getD_cons_zero] at h
        injection h with h
        cases i' with
        | zero => rfl
        | succ i' =>
          rw [List.getD_cons_succ] at h'
          have := assignCols_ge h'
          omega
      | succ i =>
        rw [List.getD_cons_succ] at h
        cases i' with
        | zero =>
          rw [List.getD_cons_zero] at h'
          injection h' with h'
          have := assignCols_ge h
          omega
        | succ i' =>
          rw [List.getD_cons_succ] at h'
          exact congrArg Nat.succ (ih h h')
    · rw [if_neg hc] at h h'
      cases i with
      | zero => rw [List.getD_cons_zero] at h; exact Option.noConfusion h
      | succ i =>
        rw [List.getD_cons_succ] at h
        cases i' with
        | zero => rw [List.getD_cons_zero] at h'; exact Option.noConfusion h'
        | succ i' =>
          rw [List.getD_cons_succ] at h'
          exact congrArg Nat.succ (ih h h')

theorem assignCols_isSome {p : Constr → Bool} :
    ∀ {cs : List Constr} {k i : ℕ}, i < cs.length →
      ((assignCols p k cs).getD i none).isSome = p (cs.getD i default) := by
  intro cs
  induction cs with
  | nil => intro k i h; cases h
  | cons c cs ih =>
    intro k i hi
    rw [assignCols]
    by_cases hc : p c
    · rw [if_pos hc]
      cases i with
      | zero => simp [hc]
      | succ i => simpa using ih (Nat.lt_of_succ_lt_succ hi)
    · rw [if_neg hc]
      cases i with
      | zero => simp [hc]
      | succ i => simpa using ih (Nat.lt_of_succ_lt_succ hi)

/-- A row without an artificial column is a ≤ row. -/
theorem rel_of_not_art {c : Constr} (h : isArtRow c = false) :
    c.rel = Relop.le := by
  cases hr : c.rel <;> simp [isArtRow, hr] at h ⊢

theorem isSlackRow_of_not_art {c : Constr} (h : isArtRow c = false) :
    isSlackRow c = true := by
  rw [isSlackRow, rel_of_not_art h]

theorem slackSign_of_not_art {c : Constr} (h : isArtRow c = false) :
    slackSign c = 1 := by
  rw [slackSign, rel_of_not_art h]

/-- Value range of the slack columns. -/
theorem slackCols_range {lp : LinearProgram} {i v : ℕ}
    (h : (slackCols lp).getD i none = some v) :
    numVars lp ≤ v ∧ v < numVars lp + nSlacks lp :=
  ⟨assignCols_ge h, assignCols_lt h⟩

/-- Value range of the artificial columns. -/
theorem artCols_range {lp : LinearProgram} {i v : ℕ}
    (h : (artCols lp).getD i none = some v) :
    numVars lp + nSlacks lp ≤ v ∧ v < totalCols lp :=
  ⟨assignCols_ge h, by
    have := assignCols_lt h
    rwa [totalCols]⟩

theorem assignCols_length {p : Constr → Bool} :
    ∀ {cs : List Constr} {k : ℕ}, (assignCols p k cs).length = cs.length := by
  intro cs
  induction cs with
  | nil => intro k; rfl
  | cons c cs ih =>
    intro k
    rw [assignCols]
    by_cases hc : p c
    · rw [if_pos hc, List.length_cons, ih, List.length_cons]
    · rw [if_neg hc, List.length_cons, ih, List.length_cons]

/-- For a row index inside the tableau, the slack column is present iff
the row is a slack row, and likewise for artificial columns. -/
theorem artCols_isSome {lp : LinearProgram} {i : ℕ} (hi : i < numRows lp) :
    ((artCols lp).getD i none).isSome = isArtRow (rowConstr lp i) :=
  assignCols_isSome hi

theorem slackCols_isSome {lp : LinearProgram} {i : ℕ} (hi : i < numRows lp) :
    ((slackCols lp).getD i none).isSome = isSlackRow (rowConstr lp i) :=
  assignCols_isSome hi

/-- The initial basis column of each row: the artificial column where
present, the slack column (of sign +1) otherwise. -/
theorem initBasis_cases {lp : LinearProgram} {i : ℕ} (hi : i < numRows lp) :
    (artCols lp).getD i none = some (initBasis lp i)
    ∨ ((artCols lp).getD i none = none
        ∧ (slackCols lp).getD i none = some (initBasis lp i)
        ∧ slackSign (rowConstr lp i) = 1) := by
  rw [initBasis]
  cases ha : (artCols lp).getD i none with
  | some a => exact Or.inl rfl
  | none =>
    have hart : isArtRow (rowConstr lp i) = false := by
      have h := @artCols_isSome lp i hi
      rw [ha] at h
      exact h.symm
    have hsome : ((slackCols lp).getD i none).isSome = true := by
      rw [slackCols_isSome hi, isSlackRow_of_not_art hart]
    obtain ⟨s, hs⟩ := Option.isSome_iff_exists.mp hsome
    rw [hs]
    exact Or.inr ⟨rfl, rfl, slackSign_of_not_art hart⟩

theorem initBasis_lt {lp : LinearProgram} {i : ℕ} (hi : i < numRows lp) :
    initBasis lp i < totalCols lp := by
  rcases initBasis_cases hi with ha | ⟨-, hs, -⟩
  · exact (artCols_range ha).2
  · have := (slackCols_range hs).2
    rw [totalCols]
    omega

theorem initBasis_ge {lp : LinearProgram} {i : ℕ} (hi : i < numRows lp) :
    numVars lp ≤ initBasis lp i := by
  rcases initBasis_cases hi with ha | ⟨-, hs, -⟩
  · have := (artCols_range ha).1
    omega
  · exact (slackCols_range hs).1

theorem initBasis_inj {lp : LinearProgram} {i i' : ℕ} (hi : i < numRows lp)
    (hi' : i' < numRows lp) (h : initBasis lp i = initBasis lp i') :
    i = i' := by
  rcases initBasis_cases hi with ha | ⟨-, hs, -⟩ <;>
    rcases initBasis_cases hi' with ha' | ⟨-, hs', -⟩
  · exact assignCols_inj ha (by rw [h]; exact ha')
  · have h1 := (artCols_range ha).1
    have h2 := (slackCols_range hs').2
    omega
  · have h1 := (slackCols_range hs).2
    have h2 := (artCols_range ha').1
    omega
  · exact assignCols_inj hs (by rw [h]; exact hs')

/-- The initial basis columns form an identity sub-matrix. -/
theorem entryA_initBasis {lp : LinearProgram} {r i : ℕ} (hr : r < numRows lp)
    (_hi : i < numRows lp) :
    entryA lp i (initBasis lp r) = if i = r then 1 else 0 := by
  have hge := initBasis_ge hr
  rcases initBasis_cases hr with ha | ⟨-, hs, hsign⟩
  · have hrange := artCols_range ha
    rw [entryA, if_neg (by omega : ¬initBasis lp r < numVars lp)]
    have h2 : ¬(slackCols lp).getD i none = some (initBasis lp r) := by
      intro hcon
      have := (slackCols_range hcon).2
      omega
    rw [if_neg h2]
    by_cases hir : i = r
    · rw [hir, if_pos ha, if_pos rfl]
      norm_num
    · have h3 : ¬(artCols lp).getD i none = some (initBasis lp r) :=
        fun hcon => hir (assignCols_inj hcon ha)
      rw [if_neg h3, if_neg hir]
      norm_num
  · have hrange := slackCols_range hs
    rw [entryA, if_neg (by omega : ¬initBasis lp r < numVars lp)]
    have h2 : ¬(artCols lp).getD i none = some (initBasis lp r) := by
      intro hcon
      have := (artCols_range hcon).1
      omega
    rw [if_neg h2]
    by_cases hir : i = r
    · rw [hir, if_pos hs, hsign, if_pos rfl]
      norm_num
    · have h3 : ¬(slackCols lp).getD i none = some (initBasis lp r) :=
        fun hcon => hir (assignCols_inj hcon hs)
      rw [if_neg h3, if_neg hir]
      norm_num

/-- The freshly built tableau (whose objective row is identically zero)
satisfies the invariant. -/
theorem baseTableau_invariant (lp : LinearProgram) :
    Invariant (baseTableau lp) := by
  refine ⟨?_, ?_, ?_, ?_⟩
  · intro i hi
    exact initBasis_lt (Finset.mem_range.mp hi)
  · intro a ha b hb h
    exact initBasis_inj (Finset.mem_range.mp ha) (Finset.mem_range.mp hb) h
  · intro rr hrr i hi
    exact entryA_initBasis (Finset.mem_range.mp hrr) (Finset.mem_range.mp hi)
  · intro rr _
    rfl

theorem sum_mul_ite (g : ℕ → ℚ) :
    ∀ {m r : ℕ}, r < m →
      ((List.range m).map (fun i => g i * (if i = r then 1 else 0))).sum
        = g r := by
  intro m
  induction m with
  | zero => intro r h; cases h
  | succ n ih =>
    intro r hr
    rw [List.range_succ, List.map_append, List.sum_append]
    by_cases hrn : r = n
    · have hz : ((List.range n).map
          (fun i => g i * (if i = r then 1 else 0))).sum = 0 := by
        apply List.sum_eq_zero
        intro x hx
        obtain ⟨i, hi, rfl⟩ := List.mem_map.mp hx
        have hi' := List.mem_range.mp hi
        rw [if_neg (by omega : ¬i = r), mul_zero]
      rw [hz, hrn]
      simp
    · have hr' : r < n := by omega
      rw [ih hr']
      have hz : (if n = r then (1 : ℚ) else 0) = 0 := if_neg fun h => hrn h.symm
      simp only [List.map_cons, List.map_nil, List.sum_cons, List.sum_nil]
      rw [hz, mul_zero]
      exact add_zero _

/-- Installing a priced-out objective row preserves the invariant. -/
theorem withCost_invariant {T : Tableau} (c : ℕ → ℚ) (h : Invariant T) :
    Invariant (withCost T c) := by
  obtain ⟨hbnd, hinj, hcol, hobj⟩ := h
  refine ⟨hbnd, hinj, hcol, ?_⟩
  intro rr hrr
  have hrm : rr < T.m := Finset.mem_range.mp hrr
  show pricedObjRow T c (T.basis rr) = 0
  rw [pricedObjRow]
  have hmap : (List.range T.m).map (fun r => c (T.basis r) * T.A r (T.basis rr))
      = (List.range T.m).map
          (fun r => c (T.basis r) * (if r = rr then 1 else 0)) := by
    apply List.map_congr_left
    intro r hrm'
    rw [hcol rr hrr r (by simpa using hrm')]
  rw [hmap, sum_mul_ite (fun r => c (T.basis r)) hrm, sub_self]

theorem phase1Result_invariant (lp : LinearProgram) :
    Invariant (phase1Result lp).2 :=
  simplexLoop_invariant (withCost_invariant _ (baseTableau_invariant lp))

theorem solvePhase2_invariant (lp : LinearProgram) {T : Tableau}
    (h : Invariant T) : Invariant (solvePhase2 lp T).2 :=
  simplexLoop_invariant (withCost_invariant _ h)

theorem finishSolve_tab (lp : LinearProgram) (st : Status) (T : Tableau) :
    (finishSolve lp st T).tab = T := by
  cases st <;> rfl

/-- Whatever `solve` returns, its terminal tableau satisfies the basis
invariant. -/
theorem solve_invariant {lp : LinearProgram} {sol : BasicFeasibleSolution}
    (h : solve lp = Except.ok sol) : Invariant sol.tab := by
  unfold solve at h
  split at h
  · exact Except.noConfusion h
  · split at h
    · injection h with h'
      rw [← h', finishSolve_tab]
      exact solvePhase2_invariant lp (baseTableau_invariant lp)
    · split at h
      · split at h
        · injection h with h'
          rw [← h']
          exact phase1Result_invariant lp
        · injection h with h'
          rw [← h', finishSolve_tab]
          exact solvePhase2_invariant lp (phase1Result_invariant lp)
      · injection h with h'
        rw [← h']
        exact phase1Result_invariant lp

/-! ## The notebook's concrete model (Scenario A)

The data below mirrors the notebook's literal parameters: profits,
per-product resource usage, resource availability and upper production
limits, assembled into the maximization model the notebook builds. -/

def n_products : ℕ := 3

def profits : List ℚ := [20, 30, 25]

def resource_usage : List (List ℚ) := [[2, 4, 3], [3, 2, 5]]

def resources_available : List ℚ := [100, 90]

def upper_limits : List ℚ := [40, 30, 50]

/-- The notebook's production-planning model: maximize profit subject to
the two resource constraints, variables bounded by `upper_limits`. -/
def productionLP : LinearProgram :=
  { vars := (List.range n_products).map (fun j =>
      ⟨0, some (upper_limits.getD j 0), profits.getD j 0⟩)
    constrs := (List.range resources_available.length).map (fun i =>
      ⟨resource_usage.getD i [], Relop.le, resources_available.getD i 0⟩)
    sense := Sense.maximize }

/-- The solved production model (Scenario A's terminal artifact). -/
def productionSol : BasicFeasibleSolution :=
  match solve productionLP with
  | Except.ok s => s
  | Except.error _ =>
    ⟨Status.CycleDetected, none, none, baseTableau productionLP⟩

/-- The sensitivity report of the production model. -/
def productionReport : SensitivityReport :=
  sensitivityReport productionLP productionSol.tab

/-- Scenario B: an infeasible model (x ≥ 10 and x ≤ 5, maximize x). -/
def infeasibleLP : LinearProgram :=
  { vars := [⟨0, none, 1⟩]
    constrs := [⟨[1], Relop.ge, 10⟩, ⟨[1], Relop.le, 5⟩]
    sense := Sense.maximize }

/-- Scenario C: an unbounded model (maximize x, no upper-bounding
constraint). -/
def unboundedLP : LinearProgram :=
  { vars := [⟨0, none, 1⟩]
    constrs := []
    sense := Sense.maximize }

/-- A small model whose second constraint is non-binding at the optimum:
maximize x subject to x ≤ 1 and x ≤ 5. -/
def tinyLP : LinearProgram :=
  { vars := [⟨0, none, 1⟩]
    constrs := [⟨[1], Relop.le, 1⟩, ⟨[1], Relop.le, 5⟩]
    sense := Sense.maximize }

/-- The solved tiny model. -/
def tinySol : BasicFeasibleSolution :=
  match solve tinyLP with
  | Except.ok s => s
  | Except.error _ => ⟨Status.CycleDetected, none, none, baseTableau tinyLP⟩

/-! ## Builder structure lemmas -/

theorem boundRowsAux_length (n : ℕ) :
    ∀ (vs : List LPVar) (j : ℕ),
      (boundRowsAux n j vs).length = vs.countP (fun v => v.ub.isSome) := by
  intro vs
  induction vs with
  | nil => intro j; rfl
  | cons v vs ih =>
    intro j
    rw [boundRowsAux, List.countP_cons]
    cases hu : v.ub with
    | some u => simp [hu, ih]
    | none => simp [hu, ih]

theorem boundRowsAux_mem (n : ℕ) :
    ∀ (vs : List LPVar) (j k : ℕ) (u : ℚ), k < vs.length →
      (vs.getD k default).ub = some u →
      (⟨unitRow n (j + k), Relop.le, u⟩ : Constr) ∈ boundRowsAux n j vs := by
  intro vs
  induction vs with
  | nil => intro j k u hk; cases hk
  | cons v vs ih =>
    intro j k u hk hu
    rw [boundRowsAux]
    cases k with
    | zero =>
      rw [List.getD_cons_zero] at hu
      rw [hu]
      exact Nat.add_zero j ▸ List.mem_cons_self _ _
    | succ k =>
      rw [List.getD_cons_succ] at hu
      have hrec := ih (j + 1) k u (Nat.lt_of_succ_lt_succ hk) hu
      have harith : j + 1 + k = j + (k + 1) := by omega
      rw [harith] at hrec
      cases hv : v.ub with
      | some u' => exact List.mem_cons_of_mem _ hrec
      | none => exact hrec

/-! ## Claim theorems -/

/-- C2: the Tableau Builder models every finite variable upper bound as
an additional ≤ constraint row of the tableau — the unit row x_j ≤ u_j,
which receives a slack and no artificial — so the tableau gains exactly
one row per finite upper bound (simple bounding) instead of treating
the bound as a native bounded variable. -/
theorem upper_bounds_modeled_as_rows (lp : LinearProgram) (j : ℕ) (u : ℚ)
    (hj : j < lp.vars.length)
    (hu : (lp.vars.getD j default).ub = some u) :
    (⟨unitRow (numVars lp) j, Relop.le, u⟩ : Constr) ∈ tableauRows lp
    ∧ isSlackRow (⟨unitRow (numVars lp) j, Relop.le, u⟩ : Constr) = true
    ∧ isArtRow (⟨unitRow (numVars lp) j, Relop.le, u⟩ : Constr) = false
    ∧ numRows lp
        = lp.constrs.length + lp.vars.countP (fun v => v.ub.isSome)
    ∧ ∀ i, i < numVars lp →
        (unitRow (numVars lp) j).getD i 0 = if i = j then 1 else 0 := by
  refine ⟨?_, rfl, rfl, ?_, ?_⟩
  · rw [tableauRows]
    apply List.mem_append_right
    have h := boundRowsAux_mem lp.vars.length lp.vars 0 j u hj hu
    rw [Nat.zero_add] at h
    exact h
  · rw [numRows, tableauRows, List.length_append, boundRows,
      boundRowsAux_length]
  · intro i hi
    have hlen : i < ((List.range (numVars lp)).map
        (fun t => if t = j then (1 : ℚ) else 0)).length := by
      simpa using hi
    rw [unitRow, List.getD_eq_getElem _ _ hlen, List.getElem_map,
      List.getElem_range]

/-- Witness for C2 at the notebook's model: the bound row x₀ ≤ 40. -/
theorem upper_bounds_modeled_as_rows_witness :
    (⟨unitRow (numVars productionLP) 0, Relop.le, 40⟩ : Constr)
        ∈ tableauRows productionLP
    ∧ numRows productionLP = productionLP.constrs.length
        + productionLP.vars.countP (fun v => v.ub.isSome) :=
  ⟨(upper_bounds_modeled_as_rows productionLP 0 40 (by decide) (by decide)).1,
   (upper_bounds_modeled_as_rows productionLP 0 40 (by decide)
      (by decide)).2.2.2.1⟩

/-- C1: On the notebook's Scenario A model (maximize 20x₀+30x₁+25x₂
subject to 2x₀+4x₁+3x₂ ≤ 100, 3x₀+2x₁+5x₂ ≤ 90, 0 ≤ x₀ ≤ 40,
0 ≤ x₁ ≤ 30, 0 ≤ x₂ ≤ 50), solving followed by sensitivity reporting
yields optimal value 850 at x = (20, 15, 0), shadow prices (25/4, 5/2),
reduced cost −25/4 for x₂, allowable objective-coefficient
increase/decrease (25, 25/7) for x₀ (25/7 = 3.5714…), and allowable RHS
increase/decrease (40, 40) for constraint 0. -/
theorem scenarioA_sensitivity_figures :
    productionSol.status = Status.Optimal
    ∧ productionSol.objVal = some 850
    ∧ productionSol.values = some [20, 15, 0]
    ∧ productionReport.shadowPrices = [25/4, 5/2]
    ∧ productionReport.reducedCosts.getD 2 0 = -25/4
    ∧ productionReport.objInc.getD 0 none = some 25
    ∧ productionReport.objDec.getD 0 none = some (25/7)
    ∧ productionReport.rhsInc.getD 0 none = some 40
    ∧ productionReport.rhsDec.getD 0 none = some 40 := by
  decide

/-- C4 as stated is false on this engine: at Scenario A's optimal
terminal tableau, variable x₂ (column 2) is non-basic, the objective-row
coefficient under column 2 is +25/4, yet the Basis Inspector reports
reduced cost −25/4 — under maximize the report negates the coefficient
rather than returning it directly. -/
theorem reducedCost_not_objRow_entry :
    productionSol.status = Status.Optimal
    ∧ (∀ r, r < productionSol.tab.m → productionSol.tab.basis r ≠ 2)
    ∧ productionSol.tab.objRow 2 = 25 / 4
    ∧ reducedCost productionLP productionSol.tab 2 = -(25 / 4)
    ∧ reducedCost productionLP productionSol.tab 2
        ≠ productionSol.tab.objRow 2 := by
  decide

/-- C4 amended: at every optimal terminal tableau the reduced cost the
Basis Inspector reports for a basic variable is exactly 0, and for every
column the reported reduced cost is the objective-row coefficient
sign-adjusted for the optimization sense (negated under maximize, direct
under minimize). -/
theorem reducedCost_basic_zero {lp : LinearProgram}
    {sol : BasicFeasibleSolution} (h : solve lp = Except.ok sol)
    (_hopt : sol.status = Status.Optimal) :
    (∀ r, r < sol.tab.m → reducedCost lp sol.tab (sol.tab.basis r) = 0)
    ∧ ∀ j, reducedCost lp sol.tab j
        = (if lp.sense = Sense.maximize then -1 else 1) * sol.tab.objRow j := by
  obtain ⟨-, -, -, hobj⟩ := solve_invariant h
  refine ⟨?_, fun j => rfl⟩
  intro r hr
  rw [reducedCost, hobj r (Finset.mem_range.mpr hr), mul_zero]

/-- Witness for the amended C4 at the notebook's model: the basic
variable of row 0 has reported reduced cost 0. -/
theorem reducedCost_basic_zero_witness :
    reducedCost productionLP productionSol.tab (productionSol.tab.basis 0)
      = 0 :=
  (@reducedCost_basic_zero productionLP productionSol rfl (by decide)).1 0
    (by decide)

/-- C5: if a constraint is non-binding at the optimum — its slack column
is basic in some row, with strictly positive value — then the shadow
price the Basis Inspector reports for it is exactly 0. -/
theorem nonbinding_shadow_price_zero {lp : LinearProgram}
    {sol : BasicFeasibleSolution} (h : solve lp = Except.ok sol)
    (_hopt : sol.status = Status.Optimal) {i r : ℕ} (hr : r < sol.tab.m)
    (hb : sol.tab.basis r = rowPriceCol lp i) (_hpos : 0 < sol.tab.rhs r) :
    shadowPrice lp sol.tab i = 0 := by
  obtain ⟨-, -, -, hobj⟩ := solve_invariant h
  rw [shadowPrice, ← hb, hobj r (Finset.mem_range.mpr hr), mul_zero]

/-- Witness for C5: in `tinyLP` (maximize x subject to x ≤ 1, x ≤ 5) the
second constraint is non-binding — its slack is basic in row 1 with
value 4 — and its shadow price is 0. -/
theorem nonbinding_shadow_price_zero_witness :
    tinySol.status = Status.Optimal
    ∧ tinySol.tab.basis 1 = rowPriceCol tinyLP 1
    ∧ 0 < tinySol.tab.rhs 1
    ∧ shadowPrice tinyLP tinySol.tab 1 = 0 :=
  ⟨by decide, by decide, by decide,
   @nonbinding_shadow_price_zero tinyLP tinySol rfl (by decide) 1 1
     (by decide) (by decide) (by decide)⟩

/-- C7: the basic-variable mapping stays a permutation (one basic
variable per row, injectively, within the column range) and the basic
columns stay exactly an identity sub-matrix: the invariant holds of the
freshly built tableau, is preserved by every pivot the loop performs,
holds after the loop, and holds of every terminal tableau `solve`
returns. -/
theorem pivot_preserves_invariant :
    (∀ lp : LinearProgram, Invariant (baseTableau lp))
    ∧ (∀ (al : ℕ → Bool) (T T' : Tableau),
        Invariant T → simplexStep al T = StepRes.next T' → Invariant T')
    ∧ (∀ (al : ℕ → Bool) (fuel : ℕ) (T : Tableau),
        Invariant T → Invariant (simplexLoop al fuel T).2)
    ∧ (∀ (lp : LinearProgram) (sol : BasicFeasibleSolution),
        solve lp = Except.ok sol → Invariant sol.tab) :=
  ⟨baseTableau_invariant,
   fun _ _ _ h hs => simplexStep_invariant h hs,
   fun _ _ _ h => simplexLoop_invariant h,
   fun _ _ h => solve_invariant h⟩

/-- Witness for C7: the invariant holds of Scenario A's terminal
tableau. -/
theorem pivot_preserves_invariant_witness : Invariant productionSol.tab :=
  pivot_preserves_invariant.2.2.2 productionLP productionSol rfl

/-- The solved Scenario B model. -/
def infeasibleSol : BasicFeasibleSolution :=
  match solve infeasibleLP with
  | Except.ok s => s
  | Except.error _ => ⟨Status.CycleDetected, none, none, baseTableau infeasibleLP⟩

/-- The solved Scenario C model. -/
def unboundedSol : BasicFeasibleSolution :=
  match solve unboundedLP with
  | Except.ok s => s
  | Except.error _ => ⟨Status.CycleDetected, none, none, baseTableau unboundedLP⟩

/-- C6: infeasibility and unboundedness are terminal status values in
the solution's status field, returned as data and not raised as
exceptions: Scenario B (x ≥ 10 and x ≤ 5) solves to status `Infeasible`
with no solution values populated, and Scenario C (maximize x with no
upper-bounding constraint) solves to status `Unbounded`. -/
theorem terminal_status_scenarios :
    solve infeasibleLP = Except.ok infeasibleSol
    ∧ infeasibleSol.status = Status.Infeasible
    ∧ infeasibleSol.values = none
    ∧ infeasibleSol.objVal = none
    ∧ solve unboundedLP = Except.ok unboundedSol
    ∧ unboundedSol.status = Status.Unbounded
    ∧ unboundedSol.values = none := by
  exact ⟨rfl, by decide, by decide, by decide, rfl, by decide, by decide⟩

/-! ## Termination of the pivot loop -/

/-- Iterate the solver's step function, stopping on a terminal result;
`next T'` means the solver is still pivoting after that many steps. -/
def runSteps (al : ℕ → Bool) : ℕ → Tableau → StepRes
  | 0, T => StepRes.next T
  | n + 1, T =>
    match simplexStep al T with
    | StepRes.done s Tf => StepRes.done s Tf
    | StepRes.next T' => runSteps al n T'

theorem finishSolve_status (lp : LinearProgram) (st : Status) (T : Tableau) :
    (finishSolve lp st T).status = st := by
  cases st <;> rfl

/-- The loop either returns a terminal status reached within the fuel
bound, or the step chain is still pivoting when the bound runs out and
the loop reports `CycleDetected`. -/
theorem simplexLoop_runSteps (al : ℕ → Bool) :
    ∀ (fuel : ℕ) (T : Tableau),
      (∃ s Tf, runSteps al fuel T = StepRes.done s Tf
        ∧ (s = Status.Optimal ∨ s = Status.Unbounded)
        ∧ simplexLoop al fuel T = (s, Tf))
      ∨ ((∃ T', runSteps al fuel T = StepRes.next T')
          ∧ (simplexLoop al fuel T).1 = Status.CycleDetected) := by
  intro fuel
  induction fuel with
  | zero => intro T; exact Or.inr ⟨⟨T, rfl⟩, rfl⟩
  | succ n ih =>
    intro T
    cases hs : simplexStep al T with
    | done s Tf =>
      obtain ⟨-, hstat⟩ := simplexStep_done hs
      refine Or.inl ⟨s, Tf, ?_, hstat, ?_⟩
      · rw [runSteps, hs]
      · rw [simplexLoop, hs]
    | next T' =>
      have hrun : runSteps al (n + 1) T = runSteps al n T' := by
        rw [runSteps, hs]
      have hloop : simplexLoop al (n + 1) T = simplexLoop al n T' := by
        rw [simplexLoop, hs]
      rw [hrun, hloop]
      exact ih T'

theorem simplexLoop_status (al : ℕ → Bool) :
    ∀ (fuel : ℕ) (T : Tableau),
      (simplexLoop al fuel T).1 = Status.Optimal
      ∨ (simplexLoop al fuel T).1 = Status.Unbounded
      ∨ (simplexLoop al fuel T).1 = Status.CycleDetected := by
  intro fuel T
  rcases simplexLoop_runSteps al fuel T with ⟨s, Tf, -, hstat, heq⟩ | ⟨-, h⟩
  · rw [heq]
    rcases hstat with h | h
    · exact Or.inl h
    · exact Or.inr (Or.inl h)
  · exact Or.inr (Or.inr h)

/-- Every solve reports one of the four terminal statuses. -/
theorem solve_status {lp : LinearProgram} {sol : BasicFeasibleSolution}
    (h : solve lp = Except.ok sol) :
    sol.status = Status.Optimal ∨ sol.status = Status.Infeasible
    ∨ sol.status = Status.Unbounded
    ∨ sol.status = Status.CycleDetected := by
  unfold solve at h
  split at h
  · exact Except.noConfusion h
  · split at h
    · injection h with h'
      rw [← h', finishSolve_status]
      rcases simplexLoop_status (phase2Allowed lp) fuelBound
          (withCost (baseTableau lp) (phase2Cost lp)) with h1 | h1 | h1
      · exact Or.inl h1
      · exact Or.inr (Or.inr (Or.inl h1))
      · exact Or.inr (Or.inr (Or.inr h1))
    · split at h
      · split at h
        · injection h with h'
          rw [← h']
          exact Or.inr (Or.inl rfl)
        · injection h with h'
          rw [← h', finishSolve_status]
          rcases simplexLoop_status (phase2Allowed lp) fuelBound
              (withCost (phase1Result lp).2 (phase2Cost lp)) with h1 | h1 | h1
          · exact Or.inl h1
          · exact Or.inr (Or.inr (Or.inl h1))
          · exact Or.inr (Or.inr (Or.inr h1))
      · injection h with h'
        rw [← h']
        show (phase1Result lp).1 = Status.Optimal ∨ _
        rcases simplexLoop_status allowAll fuelBound
            (withCost (baseTableau lp) (phase1Cost lp)) with h1 | h1 | h1
        · exact Or.inl h1
        · exact Or.inr (Or.inr (Or.inl h1))
        · exact Or.inr (Or.inr (Or.inr h1))

/-- C8: the pivot loop always terminates: for every fuel bound and
tableau it either reaches a terminal `Optimal` or `Unbounded` status
within the bound and returns it, or the step chain is still pivoting
when the generous iteration bound is exhausted and the loop fails with
`CycleDetected` rather than looping forever; consequently every solve
reports `Optimal`, `Infeasible`, `Unbounded` or `CycleDetected`. -/
theorem simplex_loop_terminates :
    (∀ (al : ℕ → Bool) (fuel : ℕ) (T : Tableau),
      (∃ s Tf, runSteps al fuel T = StepRes.done s Tf
        ∧ (s = Status.Optimal ∨ s = Status.Unbounded)
        ∧ simplexLoop al fuel T = (s, Tf))
      ∨ ((∃ T', runSteps al fuel T = StepRes.next T')
          ∧ (simplexLoop al fuel T).1 = Status.CycleDetected))
    ∧ ∀ (lp : LinearProgram) (sol : BasicFeasibleSolution),
        solve lp = Except.ok sol →
          sol.status = Status.Optimal ∨ sol.status = Status.Infeasible
          ∨ sol.status = Status.Unbounded
          ∨ sol.status = Status.CycleDetected :=
  ⟨simplexLoop_runSteps, fun _ _ h => solve_status h⟩

/-- Witness for C8: Scenario A's solve reports a terminal status. -/
theorem simplex_loop_terminates_witness :
    productionSol.status = Status.Optimal
    ∨ productionSol.status = Status.Infeasible
    ∨ productionSol.status = Status.Unbounded
    ∨ productionSol.status = Status.CycleDetected :=
  simplex_loop_terminates.2 productionLP productionSol rfl

/-! ## Determinism and tie-breaking -/

/-- C9: solving is deterministic — the engine is a pure function of the
`LinearProgram`, so solving twice yields identical results — and the
pivot tie-breaks are as specified: the entering column is the
lowest-index column among those attaining the most negative objective
row entry, and the leaving row attains the minimum ratio with ties
broken by the lowest basic-variable index. -/
theorem solve_deterministic :
    (∀ lp : LinearProgram, solve lp = solve lp)
    ∧ (∀ (al : ℕ → Bool) (T : Tableau) (j : ℕ), enteringCol al T = some j →
        j < T.cols ∧ al j = true ∧ T.objRow j < 0
          ∧ ∀ k, k < T.cols → al k = true → T.objRow k < 0 →
              T.objRow j ≤ T.objRow k ∧ (T.objRow j = T.objRow k → j ≤ k))
    ∧ ∀ (T : Tableau) (j r : ℕ), leavingRow T j = some r →
        r < T.m ∧ 0 < T.A r j
          ∧ ∀ k, k < T.m → 0 < T.A k j →
              (T.rhs r / T.A r j < T.rhs k / T.A k j
                ∨ (T.rhs r / T.A r j = T.rhs k / T.A k j
                    ∧ T.basis r ≤ T.basis k)) :=
  ⟨fun _ => rfl, fun _ _ _ h => enteringCol_spec h,
   fun _ _ _ h => leavingRow_spec h⟩

/-- The phase-2 starting tableau of the notebook's model. -/
def prodT0 : Tableau :=
  withCost (baseTableau productionLP) (phase2Cost productionLP)

/-- Witness for C9: on the notebook's model the first entering column is
x₁ (the most negative objective entry) and the first leaving row is
row 0. -/
theorem solve_deterministic_witness :
    solve productionLP = solve productionLP
    ∧ prodT0.objRow 1 < 0
    ∧ prodT0.objRow 1 ≤ prodT0.objRow 0
    ∧ 0 < prodT0.A 0 1 :=
  ⟨solve_deterministic.1 productionLP,
   (solve_deterministic.2.1 (phase2Allowed productionLP) prodT0 1
      (by decide)).2.2.1,
   ((solve_deterministic.2.1 (phase2Allowed productionLP) prodT0 1
      (by decide)).2.2.2 0 (by decide) (by decide) (by decide)).1,
   (solve_deterministic.2.2 prodT0 1 0 (by decide)).2.1⟩

/-! ## The notebook's display and sensitivity cells

The notebook guards only the primal-solution display with
`if model.status == GRB.OPTIMAL:`; the objective-sensitivity, RHS-
sensitivity, shadow-price and reduced-cost cells read solver attributes
unconditionally. -/

/-- Modelled from the spec: the external solver model the notebook
queries.  The solver's post-optimal attributes (SAObjUp, SAObjLow,
SARHSUp, SARHSLow, pi, RC) are not part of the repository's source;
reading one of them on a model that holds no optimal solution fails
with an attribute-access error, modelled as `Except`. -/
structure NotebookModel where
  status : Status
  xVals : List ℚ
  objValue : ℚ
  objCoeffs : List ℚ
  saObjUp : List ℚ
  saObjLow : List ℚ
  rhsVals : List ℚ
  saRHSUp : List ℚ
  saRHSLow : List ℚ
  piVals : List ℚ
  rcVals : List ℚ

inductive AttrError where
  | unableToRetrieve
deriving DecidableEq, Repr

/-- An attribute read, available only at an optimal solution. -/
def readAttr (m : NotebookModel) (get : NotebookModel → List ℚ) :
    Except AttrError (List ℚ) :=
  if m.status = Status.Optimal then Except.ok (get m)
  else Except.error AttrError.unableToRetrieve

/-- The display cell: guarded by `if model.status == GRB.OPTIMAL:`, it
prints the plan and profit at an optimum and silently skips
otherwise. -/
def displaySolutionCell (m : NotebookModel) : Option (List ℚ × ℚ) :=
  if m.status = Status.Optimal then some (m.xVals, m.objValue) else none

/-- The objective-sensitivity cell: reads SAObjUp and SAObjLow with no
status guard and prints coefficient, allowable increase and allowable
decrease per variable. -/
def objSensitivityCell (m : NotebookModel) :
    Except AttrError (List (ℚ × ℚ × ℚ)) :=
  match readAttr m (fun x => x.saObjUp), readAttr m (fun x => x.saObjLow) with
  | Except.ok up, Except.ok low =>
    Except.ok ((List.range m.objCoeffs.length).map (fun j =>
      (m.objCoeffs.getD j 0, up.getD j 0 - m.objCoeffs.getD j 0,
        m.objCoeffs.getD j 0 - low.getD j 0)))
  | Except.error e, _ => Except.error e
  | _, Except.error e => Except.error e

/-- The RHS-sensitivity cell: reads SARHSUp and SARHSLow with no status
guard. -/
def rhsSensitivityCell (m : NotebookModel) :
    Except AttrError (List (ℚ × ℚ × ℚ)) :=
  match readAttr m (fun x => x.saRHSUp), readAttr m (fun x => x.saRHSLow) with
  | Except.ok up, Except.ok low =>
    Except.ok ((List.range m.rhsVals.length).map (fun i =>
      (m.rhsVals.getD i 0, up.getD i 0 - m.rhsVals.getD i 0,
        m.rhsVals.getD i 0 - low.getD i 0)))
  | Except.error e, _ => Except.error e
  | _, Except.error e => Except.error e

/-- The shadow-price cell: reads `constr.pi` with no status guard. -/
def shadowPricesCell (m : NotebookModel) : Except AttrError (List ℚ) :=
  readAttr m (fun x => x.piVals)

/-- The reduced-cost cell: reads `var.RC` with no status guard. -/
def reducedCostsCell (m : NotebookModel) : Except AttrError (List ℚ) :=
  readAttr m (fun x => x.rcVals)

/-- C10: only the primal-solution display is guarded by an optimality
check: on a non-optimal model the display cell skips silently (returns
nothing, raises nothing), while the sensitivity, shadow-price and
reduced-cost cells — whose attribute reads run unconditionally — all
fail with the attribute-access error instead of being skipped. -/
theorem only_display_guarded (m : NotebookModel)
    (h : m.status ≠ Status.Optimal) :
    displaySolutionCell m = none
    ∧ objSensitivityCell m = Except.error AttrError.unableToRetrieve
    ∧ rhsSensitivityCell m = Except.error AttrError.unableToRetrieve
    ∧ shadowPricesCell m = Except.error AttrError.unableToRetrieve
    ∧ reducedCostsCell m = Except.error AttrError.unableToRetrieve := by
  refine ⟨?_, ?_, ?_, ?_, ?_⟩ <;>
    simp [displaySolutionCell, objSensitivityCell, rhsSensitivityCell,
      shadowPricesCell, reducedCostsCell, readAttr, h]

/-- A non-optimal model for the witness. -/
def nonOptimalModel : NotebookModel :=
  ⟨Status.Infeasible, [], 0, [], [], [], [], [], [], [], []⟩

/-- Witness for C10 at an infeasible model. -/
theorem only_display_guarded_witness :
    displaySolutionCell nonOptimalModel = none
    ∧ objSensitivityCell nonOptimalModel
        = Except.error AttrError.unableToRetrieve
    ∧ rhsSensitivityCell nonOptimalModel
        = Except.error AttrError.unableToRetrieve
    ∧ shadowPricesCell nonOptimalModel
        = Except.error AttrError.unableToRetrieve
    ∧ reducedCostsCell nonOptimalModel
        = Except.error AttrError.unableToRetrieve :=
  only_display_guarded nonOptimalModel (by decide)

end GurobiSA
